import Mathlib

/-!
Verification of the TeamShufflerPro grouping engine.

The engine (`handleGenerateGroups` in the main source file) partitions a
list of named people into `finalGroupCount` groups honouring "keep apart"
and "keep together" constraints.  This file gives a shallow embedding of
the engine as executable Lean functions and proves the specification's
claims about it.

Modelling conventions:
* person names are Lean `String`s; the output sort (`g.sort()`, a
  lexicographic sort on strings) is modelled by `List.insertionSort (· ≤ ·)`
  with the string linear order — both produce the unique sorted
  permutation of a duplicate-free group;
* the random source `Math.random()` is modelled by a stream `r : Nat → Nat`
  of draws; the i-th call `Math.floor(Math.random() * m)` is modelled as
  `r i % m`, an arbitrary index in `[0, m)`;
* the union-find `parent` object is modelled as a function
  `String → String`; JavaScript object keys holding the cliques iterate in
  insertion order (names are assumed not to be array-index strings), which
  `firstDedup` reproduces.
-/

namespace TeamShuffler

/-- A constraint as in `types.ts`: a list of the member names. -/
structure Constraint where
  people : List String
  deriving DecidableEq

/-- The typed failure reasons of the engine (spec §6): the four error
branches of `handleGenerateGroups`. -/
inductive PartitionError where
  | InsufficientPeople
  | ConflictingConstraint (name1 name2 : String)
  | OversizedClique
  | UnsatisfiableConstraints
  deriving DecidableEq

/-- Insertion-order deduplication, walking the list with the set of
already-seen elements: keeps the first occurrence of every element. -/
def firstDedupAux (seen : List String) : List String → List String
  | [] => []
  | x :: xs =>
    if x ∈ seen then firstDedupAux seen xs else x :: firstDedupAux (x :: seen) xs

/-- Models the key set of a JavaScript object / `new Set(xs)`, whose
iteration order is insertion order: the first occurrence of every
element, in order. -/
def firstDedup (l : List String) : List String :=
  firstDedupAux [] l

/-- Fuel-bounded root lookup, modelling `find` (source line 192) without
the path-compression write-back: compression only redirects parent
pointers to the root that `find` itself returns, so it changes no node's
root; the fuel used by the engine always exceeds the length of any parent
chain, so the recursion below always reaches the root. -/
def ufFind (parent : String → String) : Nat → String → String
  | 0, i => i
  | fuel + 1, i => if parent i = i then i else ufFind parent fuel (parent i)

/-- One union step (source lines 193–197): the root of `pr.2` is attached
under the root of `pr.1` when the two roots differ. -/
def ufUnion (fuel : Nat) (parent : String → String) (pr : String × String) :
    String → String :=
  let rootI := ufFind parent fuel pr.1
  let rootJ := ufFind parent fuel pr.2
  if rootI = rootJ then parent else fun x => if x = rootJ then rootI else parent x

/-- The pairs union-ed by the engine (source lines 199–203): every
consecutive pair of every together-constraint's member list. -/
def unionPairs (togethers : List Constraint) : List (String × String) :=
  (togethers.map (fun c => c.people.zip c.people.tail)).flatten

/-- Fuel used for every `ufFind` call: one more than the number of union
operations, which bounds the length of every parent chain. -/
def ufFuel (togethers : List Constraint) : Nat :=
  (unionPairs togethers).length + 1

/-- The parent map after all unions.  Initially every person is its own
parent (source lines 190–191), modelled by the identity function, which
agrees with the source on every queried name. -/
def parentMap (togethers : List Constraint) : String → String :=
  (unionPairs togethers).foldl (ufUnion (ufFuel togethers)) id

/-- The union-find root of a name after all together-constraints are
processed. -/
def rootOf (togethers : List Constraint) (x : String) : String :=
  ufFind (parentMap togethers) (ufFuel togethers) x

/-- The units (`cliques`, source lines 205–212): people grouped by
union-find root; keys in first-appearance order, members in `people`
order, exactly as the `people.forEach` push loop produces them. -/
def buildUnits (people : List String) (togethers : List Constraint) :
    List (List String) :=
  (firstDedup (people.map (rootOf togethers))).map
    (fun r => people.filter (fun p => rootOf togethers p == r))

/-- The conflict test for one (apart, together) pair (source lines
169–173): the intersection `[...apartSet].filter(x => togetherSet.has(x))`
keeps the distinct members of the apart-constraint, in first-occurrence
order, that also occur in the together-constraint; a conflict reports the
first two. -/
def pairConflict (a t : Constraint) : Option (String × String) :=
  match (firstDedup a.people).filter (fun x => t.people.contains x) with
  | x :: y :: _ => some (x, y)
  | _ => none

/-- The nested conflict scan (source lines 167–178): outer loop over the
apart-constraints, inner loop over the together-constraints, returning at
the first conflicting pair. -/
def conflictCheck (aparts togethers : List Constraint) : Option (String × String) :=
  aparts.findSome? (fun a => togethers.findSome? (fun t => pairConflict a t))

/-- The destructuring swap `[a[i], a[j]] = [a[j], a[i]]` on a list;
identity when an index is out of range (the engine only swaps in range). -/
def listSwap (l : List α) (i j : Nat) : List α :=
  match l[i]?, l[j]? with
  | some a, some b => (l.set i b).set j a
  | _, _ => l

/-- The Fisher–Yates loop of `shuffleArray` (source lines 67–75).
`m` is the value of `currentIndex`; the draw for the step at
`currentIndex = m + 1` is `r off % (m + 1)`, after which the element at
position `m` is swapped with the drawn position. -/
def fisherYates (r : Nat → Nat) : Nat → Nat → List α → List α
  | _, 0, l => l
  | off, m + 1, l => fisherYates r (off + 1) m (listSwap l m (r off % (m + 1)))

/-- `shuffleArray` (source lines 67–75): a full Fisher–Yates pass,
consuming `l.length` random draws starting at stream position `off`. -/
def shuffleArray (r : Nat → Nat) (off : Nat) (l : List α) : List α :=
  fisherYates r off l.length l

/-- Lexicographic comparison of character lists by code point, the order
`Array.prototype.sort`'s default comparator induces on names. -/
def listCharLe : List Char → List Char → Bool
  | [], _ => true
  | _ :: _, [] => false
  | a :: as, b :: bs =>
    if a < b then true
    else if b < a then false
    else listCharLe as bs

/-- The string comparison used when sorting a finished group. -/
def strLe (a b : String) : Bool := listCharLe a.data b.data

/-- `g.sort()` (source line 252): sort one group's names ascending.  The
stable `insertionSort` by a total order is extensionally the sorted
permutation, as is the engine's sort. -/
def sortGroup (g : List String) : List String :=
  g.insertionSort (fun a b => strLe a b = true)

/-- `groupHasApartPerson` (source lines 228–232): some person already in
the group and some person of the unit are both members of some
apart-constraint. -/
def groupHasApartPerson (aparts : List Constraint) (group unit : List String) : Bool :=
  group.any (fun personInGroup =>
    unit.any (fun personInUnit =>
      aparts.any (fun c =>
        c.people.contains personInGroup && c.people.contains personInUnit)))

/-- The candidate order (source line 225): the group indices sorted by
current size ascending.  JavaScript `Array.prototype.sort` is a stable
sort, and a stable sort by any total preorder has a unique output, so the
stable `insertionSort` computes the same list. -/
def groupOrder (gs : List (List String)) : List Nat :=
  ((gs.enum).insertionSort (fun a b => a.2.length ≤ b.2.length)).map Prod.fst

/-- Placing one unit (source lines 223–243): scan the candidate order and
append the unit to the first group without an apart conflict; `none` when
no group is eligible (`placed` stays false). -/
def placeUnit (aparts : List Constraint) (gs : List (List String)) (u : List String) :
    Option (List (List String)) :=
  match (groupOrder gs).find? (fun i => !groupHasApartPerson aparts (gs.getD i []) u) with
  | some i => some (gs.set i (gs.getD i [] ++ u))
  | none => none

/-- One packing attempt over the shuffled unit list (source lines
223–243): place each unit in turn; the attempt fails as soon as one unit
cannot be placed. -/
def placeAll (aparts : List Constraint) :
    List (List String) → List (List String) → Option (List (List String))
  | gs, [] => some gs
  | gs, u :: us =>
    match placeUnit aparts gs u with
    | some gs2 => placeAll aparts gs2 us
    | none => none

/-- The retry loop (source line 189): up to `n` attempts, each shuffling
the unit list with `units.length` fresh random draws and then packing into
`k` initially empty groups.  The `cliques` recomputed by the source at the
start of every attempt depend only on `people` and the
together-constraints, so every attempt shuffles the same `units` value. -/
def runAttempts (r : Nat → Nat) (aparts : List Constraint) (k : Nat)
    (units : List (List String)) : Nat → Nat → Option (List (List String))
  | _, 0 => none
  | off, n + 1 =>
    match placeAll aparts (List.replicate k []) (shuffleArray r off units) with
    | some gs => some gs
    | none => runAttempts r aparts k units (off + units.length) n

/-- `Math.ceil(a / b)` on naturals (for `b ≥ 1`, as the engine guarantees
with `finalGroupCount ≥ 2`). -/
def ceilDiv (a b : Nat) : Nat := (a + b - 1) / b

/-- The partition engine, `handleGenerateGroups` (source lines 150–257)
restricted to its grouping core.  Checks run in source order:
`InsufficientPeople` (line 162), `ConflictingConstraint` (lines 167–178),
`OversizedClique` (lines 212–217, evaluated on the first attempt before
any random draw and identical on every attempt), then up to 50 packing
attempts; a successful attempt's groups are each sorted. -/
def partition (people : List String) (finalGroupCount : Nat)
    (aparts togethers : List Constraint) (r : Nat → Nat) :
    Except PartitionError (List (List String)) :=
  if people.length < finalGroupCount then .error .InsufficientPeople
  else
    match conflictCheck aparts togethers with
    | some (n1, n2) => .error (.ConflictingConstraint n1 n2)
    | none =>
      let units := buildUnits people togethers
      if units.any (fun u => ceilDiv people.length finalGroupCount < u.length) then
        .error .OversizedClique
      else
        match runAttempts r aparts finalGroupCount units 0 50 with
        | some gs => .ok (gs.map sortGroup)
        | none => .error .UnsatisfiableConstraints

/-- The outcome of the `t`-th (0-based) packing attempt: the shuffle of
attempt `t` starts at stream position `t * units.length`, since every
earlier attempt consumed exactly `units.length` draws. -/
def attemptAt (r : Nat → Nat) (aparts : List Constraint) (k : Nat)
    (units : List (List String)) (t : Nat) : Option (List (List String)) :=
  placeAll aparts (List.replicate k []) (shuffleArray r (t * units.length) units)

/-- The engine's inputs, gathered in one record for the frame/purity
statements. -/
structure EngineInput where
  people : List String
  finalGroupCount : Nat
  apartConstraints : List Constraint
  togetherConstraints : List Constraint
  deriving DecidableEq

/-- The engine run together with the state of its inputs afterwards.  The
source writes only to per-call local structures (`parent`, `cliques`,
`shuffleUnits`, `tempGroups`; source lines 190, 205, 212, 219) and the
embedding threads those functionally, so the inputs flow through the call
unchanged. -/
def partitionRun (inp : EngineInput) (r : Nat → Nat) :
    Except PartitionError (List (List String)) × EngineInput :=
  (partition inp.people inp.finalGroupCount inp.apartConstraints
    inp.togetherConstraints r, inp)

/-! ### The string comparison agrees with the string order -/

theorem not_lex_nil {r : Char → Char → Prop} (l : List Char) :
    ¬ List.Lex r l [] := by
  intro h
  cases h

theorem listCharLe_iff_not_lex (as : List Char) :
    ∀ bs : List Char, listCharLe as bs = true ↔ ¬ List.Lex (· < ·) bs as := by
  induction as with
  | nil =>
    intro bs
    exact Iff.intro (fun _ => not_lex_nil bs) (fun _ => rfl)
  | cons a as ih =>
    intro bs
    cases bs with
    | nil =>
      simp only [listCharLe]
      exact iff_of_false (by simp) (fun h => h List.Lex.nil)
    | cons b bs =>
      rcases lt_trichotomy a b with hab | hab | hab
      · simp only [listCharLe, if_pos hab]
        refine iff_of_true (by trivial) (fun h => ?_)
        cases h with
        | cons h => exact absurd hab (lt_irrefl _)
        | rel h => exact absurd hab (lt_asymm h)
      · subst hab
        simp only [listCharLe, lt_irrefl, if_false]
        constructor
        · intro h hlex
          cases hlex with
          | cons hl => exact ((ih bs).mp h) hl
          | rel hl => exact absurd hl (lt_irrefl _)
        · intro h
          exact (ih bs).mpr (fun hl => h (List.Lex.cons hl))
      · simp only [listCharLe, if_neg (lt_asymm hab), if_pos hab]
        exact iff_of_false (by simp) (fun h => h (List.Lex.rel hab))

theorem strLe_iff (a b : String) : strLe a b = true ↔ a ≤ b := by
  rw [strLe, listCharLe_iff_not_lex]
  constructor
  · intro h
    by_contra hba
    push_neg at hba
    rw [String.lt_iff_toList_lt] at hba
    exact h hba
  · intro h hlex
    have hba : b < a := by
      rw [String.lt_iff_toList_lt]
      exact hlex
    exact absurd h (not_le.mpr hba)

theorem strLe_total (a b : String) : strLe a b = true ∨ strLe b a = true := by
  rcases le_total a b with h | h
  · exact Or.inl ((strLe_iff a b).mpr h)
  · exact Or.inr ((strLe_iff b a).mpr h)

theorem strLe_trans {a b c : String} (h1 : strLe a b = true)
    (h2 : strLe b c = true) : strLe a c = true :=
  (strLe_iff a c).mpr (le_trans ((strLe_iff a b).mp h1) ((strLe_iff b c).mp h2))

instance : IsTotal String (fun a b => strLe a b = true) :=
  ⟨strLe_total⟩

instance : IsTrans String (fun a b => strLe a b = true) :=
  ⟨fun _ _ _ => strLe_trans⟩

theorem sortGroup_perm (g : List String) : (sortGroup g).Perm g :=
  List.perm_insertionSort _ g

theorem sortGroup_sorted (g : List String) : (sortGroup g).Sorted (· ≤ ·) :=
  (List.sorted_insertionSort (fun a b => strLe a b = true) g).imp
    (fun hab => (strLe_iff _ _).mp hab)

/-! ### First-occurrence deduplication -/

theorem mem_firstDedupAux {x : String} :
    ∀ (l seen : List String), x ∈ firstDedupAux seen l ↔ x ∈ l ∧ x ∉ seen := by
  intro l
  induction l with
  | nil => intro seen; simp [firstDedupAux]
  | cons y ys ih =>
    intro seen
    by_cases hy : y ∈ seen
    · rw [firstDedupAux, if_pos hy, ih]
      constructor
      · rintro ⟨h1, h2⟩
        exact ⟨List.mem_cons_of_mem _ h1, h2⟩
      · rintro ⟨h1, h2⟩
        rcases List.mem_cons.mp h1 with rfl | h1
        · exact absurd hy h2
        · exact ⟨h1, h2⟩
    · rw [firstDedupAux, if_neg hy]
      by_cases hxy : x = y
      · subst hxy
        simp [hy]
      · constructor
        · intro hmem
          rcases List.mem_cons.mp hmem with rfl | hmem
          · exact absurd rfl hxy
          · obtain ⟨h1, h2⟩ := (ih (y :: seen)).mp hmem
            exact ⟨List.mem_cons_of_mem _ h1,
              fun hs => h2 (List.mem_cons_of_mem _ hs)⟩
        · rintro ⟨h1, h2⟩
          rcases List.mem_cons.mp h1 with rfl | h1
          · exact absurd rfl hxy
          · exact List.mem_cons_of_mem _
              ((ih (y :: seen)).mpr
                ⟨h1, fun hs => (List.mem_cons.mp hs).elim hxy h2⟩)

theorem mem_firstDedup {x : String} (l : List String) :
    x ∈ firstDedup l ↔ x ∈ l := by
  rw [firstDedup, mem_firstDedupAux]
  simp

theorem nodup_firstDedupAux :
    ∀ (l seen : List String), (firstDedupAux seen l).Nodup := by
  intro l
  induction l with
  | nil => intro seen; simp [firstDedupAux]
  | cons y ys ih =>
    intro seen
    by_cases hy : y ∈ seen
    · rw [firstDedupAux, if_pos hy]
      exact ih seen
    · rw [firstDedupAux, if_neg hy]
      refine List.Nodup.cons (fun hmem => ?_) (ih (y :: seen))
      exact ((mem_firstDedupAux ys (y :: seen)).mp hmem).2 (List.mem_cons_self y seen)

theorem nodup_firstDedup (l : List String) : (firstDedup l).Nodup :=
  nodup_firstDedupAux l []

/-! ### Union-find: every chain stabilizes and unions connect roots -/

/-- After `k` union operations every parent chain reaches its root within
`k` steps: `P^[k] x` is always a fixpoint of `P`. -/
def Stabilizes (P : String → String) (k : Nat) : Prop :=
  ∀ x, P (P^[k] x) = P^[k] x

theorem iterate_eq_of_fix {P : String → String} {k : Nat} {x : String}
    (h : P (P^[k] x) = P^[k] x) {m : Nat} (hm : k ≤ m) :
    P^[m] x = P^[k] x := by
  obtain ⟨d, rfl⟩ := Nat.exists_eq_add_of_le hm
  rw [Nat.add_comm, Function.iterate_add_apply]
  exact Function.iterate_fixed h d

theorem stabilizes_mono {P : String → String} {k m : Nat}
    (h : Stabilizes P k) (hm : k ≤ m) : Stabilizes P m := by
  intro x
  rw [iterate_eq_of_fix (h x) hm]
  exact h x

theorem ufFind_eq_iterate :
    ∀ (k : Nat) {fuel : Nat} {P : String → String} {x : String},
      P (P^[k] x) = P^[k] x → k ≤ fuel → ufFind P fuel x = P^[k] x := by
  intro k
  induction k with
  | zero =>
    intro fuel P x h _
    simp only [Function.iterate_zero_apply] at h ⊢
    cases fuel with
    | zero => rfl
    | succ f => rw [ufFind, if_pos h]
  | succ k ih =>
    intro fuel P x h hfuel
    obtain ⟨f, rfl⟩ : ∃ f, fuel = f + 1 := by
      cases fuel with
      | zero => omega
      | succ f => exact ⟨f, rfl⟩
    by_cases hx : P x = x
    · rw [ufFind, if_pos hx, Function.iterate_fixed hx]
    · rw [ufFind, if_neg hx]
      have h' : P (P^[k] (P x)) = P^[k] (P x) := by
        rw [← Function.iterate_succ_apply]
        exact h
      rw [ih h' (Nat.le_of_succ_le_succ hfuel), ← Function.iterate_succ_apply]

/-- The attached parent map: `parent[rootJ] = rootI` (source line 196). -/
theorem ufAttach_cases (P : String → String) (rI rJ : String)
    (hI : P rI = rI) (hne : rI ≠ rJ) (m : Nat) (x : String) :
    (fun y => if y = rJ then rI else P y)^[m] x = rI
    ∨ ((fun y => if y = rJ then rI else P y)^[m] x = P^[m] x ∧ P^[m] x ≠ rJ)
    ∨ ((fun y => if y = rJ then rI else P y)^[m] x = P^[m] x ∧ P^[m] x = rJ) := by
  set Q := fun y => if y = rJ then rI else P y with hQ
  induction m with
  | zero =>
    by_cases hx : x = rJ
    · exact Or.inr (Or.inr ⟨rfl, hx⟩)
    · exact Or.inr (Or.inl ⟨rfl, hx⟩)
  | succ m ih =>
    have hQI : Q rI = rI := by
      rw [hQ]
      simp only [if_neg hne]
      exact hI
    rcases ih with h1 | ⟨h2, h2'⟩ | ⟨h3, h3'⟩
    · refine Or.inl ?_
      rw [Function.iterate_succ_apply', h1, hQI]
    · by_cases hnext : P^[m + 1] x = rJ
      · refine Or.inr (Or.inr ⟨?_, hnext⟩)
        rw [Function.iterate_succ_apply', h2, Function.iterate_succ_apply']
        rw [hQ]
        simp only [if_neg h2']
      · refine Or.inr (Or.inl ⟨?_, hnext⟩)
        rw [Function.iterate_succ_apply', h2, Function.iterate_succ_apply']
        rw [hQ]
        simp only [if_neg h2']
    · refine Or.inl ?_
      rw [Function.iterate_succ_apply', h3, h3']
      rw [hQ]
      simp

theorem stabilizes_ufAttach {P : String → String} {k : Nat}
    (hP : Stabilizes P k) {rI rJ : String}
    (hI : P rI = rI) (hne : rI ≠ rJ) :
    Stabilizes (fun y => if y = rJ then rI else P y) (k + 1) := by
  intro x
  set Q := fun y => if y = rJ then rI else P y with hQ
  have hQI : Q rI = rI := by
    rw [hQ]
    simp only [if_neg hne]
    exact hI
  rcases ufAttach_cases P rI rJ hI hne (k + 1) x with h1 | ⟨h2, h2'⟩ | ⟨h3, h3'⟩
  · rw [h1, hQI]
  · have hfix : P^[k + 1] x = P^[k] x := iterate_eq_of_fix (hP x) (Nat.le_succ k)
    rw [h2, hQ]
    simp only [if_neg h2']
    rw [hfix]
    exact hP x
  · exfalso
    have hk : P^[k + 1] x = P^[k] x := iterate_eq_of_fix (hP x) (Nat.le_succ k)
    have hkJ : P^[k] x = rJ := by rw [← hk]; exact h3'
    rcases ufAttach_cases P rI rJ hI hne k x with g1 | ⟨g2, g2'⟩ | ⟨g3, g3'⟩
    · have : Q^[k + 1] x = rI := by
        rw [Function.iterate_succ_apply', g1, hQI]
      rw [h3, h3'] at this
      exact hne this.symm
    · exact g2' hkJ
    · have : Q^[k + 1] x = rI := by
        rw [Function.iterate_succ_apply', g3, g3']
        rw [hQ]
        simp
      rw [h3, h3'] at this
      exact hne this.symm

theorem ufAttach_iterate_away {P : String → String} {k : Nat}
    (hP : Stabilizes P k) {rJ : String} (hJ : P rJ = rJ) {x : String}
    (hx : P^[k] x ≠ rJ) (rI : String) :
    ∀ m, (fun y => if y = rJ then rI else P y)^[m] x = P^[m] x := by
  have hnever : ∀ m, P^[m] x ≠ rJ := by
    intro m hm
    rcases Nat.le_total m k with hmk | hkm
    · have : P^[k] x = rJ := by
        calc P^[k] x = P^[k - m] (P^[m] x) := by
              rw [← Function.iterate_add_apply]
              congr 1
              omega
          _ = rJ := by rw [hm]; exact Function.iterate_fixed hJ _
      exact hx this
    · have : P^[m] x = P^[k] x := iterate_eq_of_fix (hP x) hkm
      rw [this] at hm
      exact hx hm
  intro m
  induction m with
  | zero => rfl
  | succ m ih =>
    rw [Function.iterate_succ_apply', Function.iterate_succ_apply', ih]
    simp only [if_neg (hnever m)]

theorem ufFind_ufAttach {P : String → String} {k fuel : Nat}
    (hP : Stabilizes P k) (hfuel : k + 1 ≤ fuel) {rI rJ : String}
    (hI : P rI = rI) (hJ : P rJ = rJ) (hne : rI ≠ rJ) (x : String) :
    ufFind (fun y => if y = rJ then rI else P y) fuel x
      = if ufFind P fuel x = rJ then rI else ufFind P fuel x := by
  have hPx : ufFind P fuel x = P^[k] x :=
    ufFind_eq_iterate k (hP x) (Nat.le_of_succ_le hfuel)
  have hQ : Stabilizes (fun y => if y = rJ then rI else P y) (k + 1) :=
    stabilizes_ufAttach hP hI hne
  have hQx : ufFind (fun y => if y = rJ then rI else P y) fuel x
      = (fun y => if y = rJ then rI else P y)^[k + 1] x :=
    ufFind_eq_iterate (k + 1) (hQ x) hfuel
  rw [hPx, hQx]
  by_cases hxJ : P^[k] x = rJ
  · rw [if_pos hxJ]
    rcases ufAttach_cases P rI rJ hI hne k x with g1 | ⟨g2, g2'⟩ | ⟨g3, g3'⟩
    · rw [Function.iterate_succ_apply', g1]
      simp only [if_neg hne]
      exact hI
    · exact absurd hxJ g2'
    · rw [Function.iterate_succ_apply', g3, g3']
      simp
  · rw [if_neg hxJ]
    rw [ufAttach_iterate_away hP hJ hxJ rI (k + 1)]
    exact iterate_eq_of_fix (hP x) (Nat.le_succ k)

/-- The root map after one `union` call: the old root of `pr.2` is
redirected to the old root of `pr.1`, every other root is unchanged. -/
theorem ufFind_ufUnion {P : String → String} {k fuel : Nat}
    (hP : Stabilizes P k) (hfuel : k + 1 ≤ fuel) (pr : String × String)
    (x : String) :
    ufFind (ufUnion fuel P pr) fuel x
      = if ufFind P fuel x = ufFind P fuel pr.2 then ufFind P fuel pr.1
        else ufFind P fuel x := by
  rw [ufUnion]
  set rI := ufFind P fuel pr.1 with hrI
  set rJ := ufFind P fuel pr.2 with hrJ
  by_cases hre : rI = rJ
  · simp only [if_pos hre]
    by_cases hx : ufFind P fuel x = rJ
    · rw [if_pos hx, hre, ← hx]
    · rw [if_neg hx]
  · simp only [if_neg hre]
    have hIit : rI = P^[k] pr.1 := by
      rw [hrI]
      exact ufFind_eq_iterate k (hP pr.1) (Nat.le_of_succ_le hfuel)
    have hJit : rJ = P^[k] pr.2 := by
      rw [hrJ]
      exact ufFind_eq_iterate k (hP pr.2) (Nat.le_of_succ_le hfuel)
    have hI : P rI = rI := by rw [hIit]; exact hP pr.1
    have hJ : P rJ = rJ := by rw [hJit]; exact hP pr.2
    exact ufFind_ufAttach hP hfuel hI hJ hre x

theorem stabilizes_ufUnion {P : String → String} {k fuel : Nat}
    (hP : Stabilizes P k) (hfuel : k ≤ fuel) (pr : String × String) :
    Stabilizes (ufUnion fuel P pr) (k + 1) := by
  rw [ufUnion]
  set rI := ufFind P fuel pr.1 with hrI
  set rJ := ufFind P fuel pr.2 with hrJ
  by_cases hre : rI = rJ
  · simp only [if_pos hre]
    exact stabilizes_mono hP (Nat.le_succ k)
  · simp only [if_neg hre]
    have hI : P rI = rI := by
      rw [hrI, ufFind_eq_iterate k (hP pr.1) hfuel]
      exact hP pr.1
    exact stabilizes_ufAttach hP hI hre

theorem stabilizes_foldl (fuel : Nat) :
    ∀ (l : List (String × String)) (P : String → String) (k : Nat),
      Stabilizes P k → k + l.length ≤ fuel →
      Stabilizes (l.foldl (ufUnion fuel) P) (k + l.length) := by
  intro l
  induction l with
  | nil =>
    intro P k hP _
    simpa using hP
  | cons pr l ih =>
    intro P k hP hlen
    simp only [List.foldl_cons, List.length_cons]
    have h1 : Stabilizes (ufUnion fuel P pr) (k + 1) :=
      stabilizes_ufUnion hP (by simp at hlen; omega) pr
    have h2 := ih (ufUnion fuel P pr) (k + 1) h1 (by simp at hlen ⊢; omega)
    have harith : k + 1 + l.length = k + (l.length + 1) := by omega
    rwa [harith] at h2

theorem ufFind_foldl_pres (fuel : Nat) :
    ∀ (l : List (String × String)) (P : String → String) (k : Nat),
      Stabilizes P k → k + l.length ≤ fuel →
      ∀ x y, ufFind P fuel x = ufFind P fuel y →
        ufFind (l.foldl (ufUnion fuel) P) fuel x
          = ufFind (l.foldl (ufUnion fuel) P) fuel y := by
  intro l
  induction l with
  | nil =>
    intro P k _ _ x y h
    simpa using h
  | cons pr l ih =>
    intro P k hP hlen x y h
    simp only [List.foldl_cons]
    have hk1 : k + 1 ≤ fuel := by simp at hlen; omega
    have h1 : Stabilizes (ufUnion fuel P pr) (k + 1) :=
      stabilizes_ufUnion hP (Nat.le_of_succ_le hk1) pr
    refine ih (ufUnion fuel P pr) (k + 1) h1 (by simp at hlen ⊢; omega) x y ?_
    rw [ufFind_ufUnion hP hk1 pr x, ufFind_ufUnion hP hk1 pr y, h]

theorem ufFind_foldl_connect (fuel : Nat) :
    ∀ (l : List (String × String)) (P : String → String) (k : Nat),
      Stabilizes P k → k + l.length ≤ fuel →
      ∀ pr ∈ l, ufFind (l.foldl (ufUnion fuel) P) fuel pr.1
        = ufFind (l.foldl (ufUnion fuel) P) fuel pr.2 := by
  intro l
  induction l with
  | nil =>
    intro P k _ _ pr hpr
    exact absurd hpr (List.not_mem_nil pr)
  | cons pr0 l ih =>
    intro P k hP hlen pr hpr
    simp only [List.foldl_cons]
    have hk1 : k + 1 ≤ fuel := by simp at hlen; omega
    have h1 : Stabilizes (ufUnion fuel P pr0) (k + 1) :=
      stabilizes_ufUnion hP (Nat.le_of_succ_le hk1) pr0
    rcases List.mem_cons.mp hpr with rfl | hpr
    · refine ufFind_foldl_pres fuel l (ufUnion fuel P pr) (k + 1) h1
        (by simp at hlen ⊢; omega) pr.1 pr.2 ?_
      rw [ufFind_ufUnion hP hk1 pr pr.1, ufFind_ufUnion hP hk1 pr pr.2]
      by_cases h12 : ufFind P fuel pr.1 = ufFind P fuel pr.2
      · rw [if_pos h12, if_pos rfl]
      · rw [if_neg h12, if_pos rfl]
    · exact ih (ufUnion fuel P pr0) (k + 1) h1 (by simp at hlen ⊢; omega) pr hpr

theorem stabilizes_id : Stabilizes id 0 := fun _ => rfl

theorem rootOf_pair {togethers : List Constraint} {pr : String × String}
    (hpr : pr ∈ unionPairs togethers) :
    rootOf togethers pr.1 = rootOf togethers pr.2 := by
  have h := ufFind_foldl_connect (ufFuel togethers) (unionPairs togethers) id 0
    stabilizes_id (by simp [ufFuel]) pr hpr
  exact h

theorem chain_root_head (root : String → String) :
    ∀ (l : List String) (a : String),
      (∀ pr ∈ (a :: l).zip l, root pr.1 = root pr.2) →
      ∀ x ∈ a :: l, root x = root a := by
  intro l
  induction l with
  | nil =>
    intro a _ x hx
    rcases List.mem_cons.mp hx with rfl | hx
    · rfl
    · exact absurd hx (List.not_mem_nil x)
  | cons b l ih =>
    intro a hpairs x hx
    have hab : root a = root b := hpairs (a, b) (by simp [List.zip_cons_cons])
    have htail : ∀ pr ∈ (b :: l).zip l, root pr.1 = root pr.2 := by
      intro pr hpr
      refine hpairs pr ?_
      simp only [List.zip_cons_cons, List.mem_cons]
      exact Or.inr hpr
    rcases List.mem_cons.mp hx with rfl | hx
    · rfl
    · rw [ih b htail x hx, hab]

theorem rootOf_constraint {togethers : List Constraint} {c : Constraint}
    (hc : c ∈ togethers) {x y : String}
    (hx : x ∈ c.people) (hy : y ∈ c.people) :
    rootOf togethers x = rootOf togethers y := by
  have hpairs : ∀ pr ∈ c.people.zip c.people.tail,
      rootOf togethers pr.1 = rootOf togethers pr.2 := by
    intro pr hpr
    refine rootOf_pair ?_
    rw [unionPairs]
    exact List.mem_flatten.mpr
      ⟨c.people.zip c.people.tail, List.mem_map_of_mem _ hc, hpr⟩
  cases hl : c.people with
  | nil =>
    rw [hl] at hx
    exact absurd hx (List.not_mem_nil x)
  | cons a rest =>
    rw [hl] at hx hy hpairs
    have hhead := chain_root_head (rootOf togethers) rest a (by
      intro pr hpr
      exact hpairs pr (by simpa using hpr))
    rw [hhead x hx, hhead y hy]

/-! ### The shuffle is a permutation and reads a bounded window of draws -/

theorem cons_set_perm (a : α) :
    ∀ (t : List α) (k : Nat) (b : α), t[k]? = some b →
      (b :: t.set k a).Perm (a :: t) := by
  intro t
  induction t with
  | nil =>
    intro k b h
    simp at h
  | cons c t ih =>
    intro k b h
    cases k with
    | zero =>
      simp only [List.getElem?_cons_zero, Option.some_inj] at h
      simp only [List.set_cons_zero]
      rw [h]
      exact List.Perm.swap a b t
    | succ k =>
      simp only [List.getElem?_cons_succ] at h
      simp only [List.set_cons_succ]
      exact ((List.Perm.swap c b _).trans
        (List.Perm.cons c (ih k b h))).trans (List.Perm.swap a c t)

theorem set_set_perm :
    ∀ (l : List α) (i j : Nat) (a b : α), l[i]? = some a → l[j]? = some b →
      ((l.set i b).set j a).Perm l := by
  intro l
  induction l with
  | nil =>
    intro i j a b hi _
    simp at hi
  | cons c t ih =>
    intro i j a b hi hj
    cases i with
    | zero =>
      simp only [List.getElem?_cons_zero, Option.some_inj] at hi
      cases j with
      | zero =>
        simp only [List.getElem?_cons_zero, Option.some_inj] at hj
        simp only [List.set_cons_zero]
        rw [hi]
      | succ k =>
        simp only [List.getElem?_cons_succ] at hj
        simp only [List.set_cons_zero, List.set_cons_succ]
        rw [hi]
        exact cons_set_perm a t k b hj
    | succ i =>
      simp only [List.getElem?_cons_succ] at hi
      cases j with
      | zero =>
        simp only [List.getElem?_cons_zero, Option.some_inj] at hj
        simp only [List.set_cons_succ, List.set_cons_zero]
        rw [hj]
        exact cons_set_perm b t i a hi
      | succ j =>
        simp only [List.getElem?_cons_succ] at hj
        simp only [List.set_cons_succ]
        exact List.Perm.cons c (ih i j a b hi hj)

theorem listSwap_perm (l : List α) (i j : Nat) : (listSwap l i j).Perm l := by
  rw [listSwap]
  cases hi : l[i]? with
  | none => exact List.Perm.refl l
  | some a =>
    cases hj : l[j]? with
    | none => exact List.Perm.refl l
    | some b => exact set_set_perm l i j a b hi hj

theorem listSwap_length (l : List α) (i j : Nat) :
    (listSwap l i j).length = l.length := by
  rw [listSwap]
  cases hi : l[i]? <;> cases hj : l[j]? <;> simp

theorem fisherYates_perm (r : Nat → Nat) :
    ∀ (m off : Nat) (l : List α), (fisherYates r off m l).Perm l := by
  intro m
  induction m with
  | zero => intro off l; exact List.Perm.refl l
  | succ m ih =>
    intro off l
    rw [fisherYates]
    exact (ih (off + 1) _).trans (listSwap_perm l m (r off % (m + 1)))

theorem shuffleArray_perm (r : Nat → Nat) (off : Nat) (l : List α) :
    (shuffleArray r off l).Perm l :=
  fisherYates_perm r l.length off l

theorem fisherYates_ext (r r2 : Nat → Nat) :
    ∀ (m off : Nat) (l : List α),
      (∀ i, off ≤ i → i < off + m → r i = r2 i) →
      fisherYates r off m l = fisherYates r2 off m l := by
  intro m
  induction m with
  | zero => intro off l _; rfl
  | succ m ih =>
    intro off l h
    rw [fisherYates, fisherYates]
    rw [h off (Nat.le_refl off) (by omega)]
    exact ih (off + 1) _ (fun i h1 h2 => h i (by omega) (by omega))

theorem shuffleArray_ext (r r2 : Nat → Nat) (off : Nat) (l : List α)
    (h : ∀ i, off ≤ i → i < off + l.length → r i = r2 i) :
    shuffleArray r off l = shuffleArray r2 off l :=
  fisherYates_ext r r2 l.length off l h

/-! ### The units partition the people -/

theorem mem_unit_iff (people : List String) (togethers : List Constraint)
    (r p : String) :
    p ∈ people.filter (fun q => rootOf togethers q == r) ↔
      p ∈ people ∧ rootOf togethers p = r := by
  simp [List.mem_filter]

theorem flatten_filter_key_perm (root : String → String) (people : List String) :
    ∀ K : List String, K.Nodup →
      ((K.map (fun r => people.filter (fun p => root p == r))).flatten).Perm
        (people.filter (fun p => decide (root p ∈ K))) := by
  intro K
  induction K with
  | nil =>
    intro _
    simp
  | cons r K ih =>
    intro hK
    have hrK : r ∉ K := (List.nodup_cons.mp hK).1
    have hK2 : K.Nodup := (List.nodup_cons.mp hK).2
    simp only [List.map_cons, List.flatten_cons]
    have step1 : (people.filter (fun p => root p == r) ++
        (K.map (fun rr => people.filter (fun p => root p == rr))).flatten).Perm
        (people.filter (fun p => root p == r) ++
          people.filter (fun p => decide (root p ∈ K))) :=
      List.Perm.append_left _ (ih hK2)
    refine step1.trans ?_
    have hbig := List.filter_append_perm (fun p => root p == r)
      (people.filter (fun p => decide (root p ∈ r :: K)))
    rw [List.filter_filter, List.filter_filter] at hbig
    have he1 : people.filter (fun p => (root p == r) && decide (root p ∈ r :: K))
        = people.filter (fun p => root p == r) := by
      refine List.filter_congr (fun p _ => ?_)
      by_cases hp : root p = r
      · simp [hp]
      · simp [hp]
    have he2 : people.filter (fun p => (!(root p == r)) && decide (root p ∈ r :: K))
        = people.filter (fun p => decide (root p ∈ K)) := by
      refine List.filter_congr (fun p _ => ?_)
      by_cases hp : root p = r
      · simp [hp, hrK]
      · simp only [List.mem_cons]
        simp [hp]
    rw [he1, he2] at hbig
    exact hbig

theorem buildUnits_flatten_perm (people : List String)
    (togethers : List Constraint) :
    (buildUnits people togethers).flatten.Perm people := by
  rw [buildUnits]
  refine (flatten_filter_key_perm (rootOf togethers) people _
    (nodup_firstDedup _)).trans ?_
  have : people.filter
      (fun p => decide (rootOf togethers p ∈ firstDedup (people.map (rootOf togethers))))
      = people := by
    rw [List.filter_eq_self]
    intro p hp
    simp only [decide_eq_true_eq]
    exact (mem_firstDedup _).mpr (List.mem_map_of_mem _ hp)
  rw [this]

theorem exists_unit_mem (people : List String) (togethers : List Constraint)
    (p : String) (hp : p ∈ people) :
    ∃ u ∈ buildUnits people togethers, p ∈ u ∧
      ∀ q ∈ u, rootOf togethers q = rootOf togethers p := by
  refine ⟨people.filter (fun q => rootOf togethers q == rootOf togethers p),
    ?_, ?_, ?_⟩
  · rw [buildUnits]
    refine List.mem_map_of_mem _ ?_
    exact (mem_firstDedup _).mpr (List.mem_map_of_mem _ hp)
  · exact (mem_unit_iff people togethers _ p).mpr ⟨hp, rfl⟩
  · intro q hq
    exact ((mem_unit_iff people togethers _ q).mp hq).2

/-! ### The candidate group order: a stable sort by current size -/

theorem pairwise_orderedInsert_lex (a : Nat × List String) :
    ∀ L : List (Nat × List String),
      L.Pairwise (fun x y => x.2.length < y.2.length ∨
        (x.2.length = y.2.length ∧ x.1 < y.1)) →
      (∀ b ∈ L, a.1 < b.1) →
      (List.orderedInsert (fun x y => x.2.length ≤ y.2.length) a L).Pairwise
        (fun x y => x.2.length < y.2.length ∨
          (x.2.length = y.2.length ∧ x.1 < y.1)) := by
  intro L
  induction L with
  | nil =>
    intro _ _
    simp [List.orderedInsert]
  | cons b T ih =>
    intro hpw hlt
    obtain ⟨hbT, hT⟩ := List.pairwise_cons.mp hpw
    rw [List.orderedInsert]
    by_cases hab : a.2.length ≤ b.2.length
    · rw [if_pos hab]
      refine List.Pairwise.cons ?_ hpw
      intro c hc
      rcases List.mem_cons.mp hc with rfl | hc
      · rcases Nat.lt_or_ge a.2.length c.2.length with h | h
        · exact Or.inl h
        · exact Or.inr ⟨Nat.le_antisymm hab h, hlt c (List.mem_cons_self _ _)⟩
      · rcases hbT c hc with h | ⟨h1, _⟩
        · exact Or.inl (Nat.lt_of_le_of_lt hab h)
        · rcases Nat.lt_or_ge a.2.length c.2.length with h2 | h2
          · exact Or.inl h2
          · exact Or.inr ⟨Nat.le_antisymm (h1 ▸ hab) h2,
              hlt c (List.mem_cons_of_mem _ hc)⟩
    · rw [if_neg hab]
      have hb : b.2.length < a.2.length := Nat.lt_of_not_le hab
      refine List.Pairwise.cons ?_
        (ih hT (fun c hc => hlt c (List.mem_cons_of_mem _ hc)))
      intro c hc
      rcases (List.mem_orderedInsert _).mp hc with rfl | hc
      · exact Or.inl hb
      · exact hbT c hc

theorem pairwise_insertionSort_lex :
    ∀ L : List (Nat × List String), L.Pairwise (fun x y => x.1 < y.1) →
      (L.insertionSort (fun x y => x.2.length ≤ y.2.length)).Pairwise
        (fun x y => x.2.length < y.2.length ∨
          (x.2.length = y.2.length ∧ x.1 < y.1)) := by
  intro L
  induction L with
  | nil =>
    intro _
    simp [List.insertionSort]
  | cons a L ih =>
    intro hpw
    obtain ⟨haL, hL⟩ := List.pairwise_cons.mp hpw
    rw [List.insertionSort]
    refine pairwise_orderedInsert_lex a _ (ih hL) ?_
    intro b hb
    exact haL b ((List.mem_insertionSort _).mp hb)

theorem pairwise_fst_lt_enum (gs : List (List String)) :
    gs.enum.Pairwise (fun x y => x.1 < y.1) := by
  rw [List.enum_eq_zip_range]
  have h := List.pairwise_lt_range gs.length
  have hmap : List.map Prod.fst ((List.range gs.length).zip gs)
      = List.range gs.length :=
    List.map_fst_zip _ _ (by simp)
  rw [← hmap] at h
  exact List.pairwise_map.mp h

theorem groupOrder_perm_range (gs : List (List String)) :
    (groupOrder gs).Perm (List.range gs.length) := by
  rw [groupOrder]
  have h := (List.perm_insertionSort
    (fun x y : Nat × List String => x.2.length ≤ y.2.length) gs.enum).map Prod.fst
  rw [List.enum_map_fst] at h
  exact h

theorem mem_groupOrder_lt {gs : List (List String)} {i : Nat}
    (h : i ∈ groupOrder gs) : i < gs.length :=
  List.mem_range.mp ((groupOrder_perm_range gs).mem_iff.mp h)

theorem groupOrder_pairwise (gs : List (List String)) :
    (groupOrder gs).Pairwise (fun i j =>
      (gs.getD i []).length < (gs.getD j []).length ∨
        ((gs.getD i []).length = (gs.getD j []).length ∧ i < j)) := by
  rw [groupOrder, List.pairwise_map]
  have h := pairwise_insertionSort_lex gs.enum (pairwise_fst_lt_enum gs)
  refine h.imp_of_mem ?_
  intro x y hx hy hxy
  have hx2 : gs.getD x.1 [] = x.2 := by
    have := List.mem_enum_iff_getElem?.mp
      ((List.mem_insertionSort _).mp hx)
    rw [List.getD_eq_getElem?_getD, this]
    rfl
  have hy2 : gs.getD y.1 [] = y.2 := by
    have := List.mem_enum_iff_getElem?.mp
      ((List.mem_insertionSort _).mp hy)
    rw [List.getD_eq_getElem?_getD, this]
    rfl
  rw [hx2, hy2]
  exact hxy

/-! ### Scanning for the first eligible group -/

theorem find?_eq_some_decomp {p : α → Bool} :
    ∀ (l : List α) (a : α), l.find? p = some a ↔
      ∃ l1 l2, l = l1 ++ a :: l2 ∧ (∀ x ∈ l1, p x = false) ∧ p a = true := by
  intro l
  induction l with
  | nil =>
    intro a
    constructor
    · intro h
      simp [List.find?] at h
    · rintro ⟨l1, l2, heq, -, -⟩
      exact absurd heq (by simp)
  | cons b l ih =>
    intro a
    by_cases hb : p b = true
    · rw [List.find?_cons_of_pos _ hb]
      constructor
      · intro h
        obtain rfl := Option.some_inj.mp h
        exact ⟨[], l, rfl, by simp, hb⟩
      · rintro ⟨l1, l2, heq, hl1, ha⟩
        cases l1 with
        | nil =>
          simp only [List.nil_append, List.cons.injEq] at heq
          rw [heq.1]
        | cons c l1 =>
          simp only [List.cons_append, List.cons.injEq] at heq
          have hc := hl1 c (List.mem_cons_self _ _)
          rw [← heq.1, hb] at hc
          exact absurd hc (by simp)
    · have hb2 : p b = false := by
        revert hb
        cases p b <;> simp
      rw [List.find?_cons_of_neg _ hb, ih a]
      constructor
      · rintro ⟨l1, l2, heq, hl1, ha⟩
        refine ⟨b :: l1, l2, by rw [heq, List.cons_append], ?_, ha⟩
        intro x hx
        rcases List.mem_cons.mp hx with rfl | hx
        · exact hb2
        · exact hl1 x hx
      · rintro ⟨l1, l2, heq, hl1, ha⟩
        cases l1 with
        | nil =>
          simp only [List.nil_append, List.cons.injEq] at heq
          rw [← heq.1] at ha
          exact absurd ha hb
        | cons c l1 =>
          simp only [List.cons_append, List.cons.injEq] at heq
          exact ⟨l1, l2, heq.2, fun x hx => hl1 x (List.mem_cons_of_mem _ hx), ha⟩

theorem findSome?_eq_some_decomp {f : α → Option β} :
    ∀ (l : List α) (b : β), l.findSome? f = some b →
      ∃ l1 a l2, l = l1 ++ a :: l2 ∧ (∀ x ∈ l1, f x = none) ∧ f a = some b := by
  intro l
  induction l with
  | nil =>
    intro b h
    simp [List.findSome?] at h
  | cons c l ih =>
    intro b h
    rw [List.findSome?_cons] at h
    cases hc : f c with
    | some d =>
      rw [hc] at h
      obtain rfl := Option.some_inj.mp h
      exact ⟨[], c, l, rfl, by simp, hc⟩
    | none =>
      rw [hc] at h
      obtain ⟨l1, a, l2, heq, hl1, ha⟩ := ih b h
      refine ⟨c :: l1, a, l2, by rw [heq, List.cons_append], ?_, ha⟩
      intro x hx
      rcases List.mem_cons.mp hx with rfl | hx
      · exact hc
      · exact hl1 x hx

/-! ### Placing units into groups -/

/-- Spec-side eligibility (spec §4.3 step 4): a group is eligible for a
unit iff no person already placed in it and no person in the unit are
linked by any apart-constraint. -/
def Eligible (aparts : List Constraint) (g u : List String) : Prop :=
  ¬ ∃ pg ∈ g, ∃ pu ∈ u, ∃ c ∈ aparts, pg ∈ c.people ∧ pu ∈ c.people

theorem groupHasApartPerson_eq_false_iff (aparts : List Constraint)
    (g u : List String) :
    groupHasApartPerson aparts g u = false ↔ Eligible aparts g u := by
  rw [Eligible, ← Bool.not_eq_true]
  simp [groupHasApartPerson, List.any_eq_true, List.contains, List.elem_iff]

theorem not_eligible_iff_ghap (aparts : List Constraint) (g u : List String) :
    ¬ Eligible aparts g u ↔ groupHasApartPerson aparts g u = true := by
  rw [← groupHasApartPerson_eq_false_iff]
  cases groupHasApartPerson aparts g u <;> simp

theorem getD_set_self (l : List (List String)) (i : Nat) (v : List String)
    (h : i < l.length) : (l.set i v).getD i [] = v := by
  rw [List.getD_eq_getElem?_getD, List.getElem?_set]
  simp [h]

theorem getD_set_other (l : List (List String)) {i j : Nat} (v : List String)
    (h : i ≠ j) : (l.set i v).getD j [] = l.getD j [] := by
  rw [List.getD_eq_getElem?_getD, List.getElem?_set, if_neg h,
    ← List.getD_eq_getElem?_getD]

theorem placeUnit_some_iff {aparts : List Constraint} {gs : List (List String)}
    {u : List String} {gs2 : List (List String)} :
    placeUnit aparts gs u = some gs2 ↔
      ∃ i l1 l2, groupOrder gs = l1 ++ i :: l2
        ∧ (∀ j ∈ l1, ¬ Eligible aparts (gs.getD j []) u)
        ∧ Eligible aparts (gs.getD i []) u
        ∧ gs2 = gs.set i (gs.getD i [] ++ u) := by
  rw [placeUnit]
  constructor
  · intro h
    cases hf : (groupOrder gs).find?
        (fun i => !groupHasApartPerson aparts (gs.getD i []) u) with
    | none =>
      rw [hf] at h
      exact absurd h (by simp)
    | some i =>
      rw [hf] at h
      obtain rfl := Option.some_inj.mp h
      obtain ⟨l1, l2, heq, hl1, hi⟩ := (find?_eq_some_decomp _ i).mp hf
      refine ⟨i, l1, l2, heq, ?_, ?_, rfl⟩
      · intro j hj
        have hjf := hl1 j hj
        rw [not_eligible_iff_ghap]
        revert hjf
        cases groupHasApartPerson aparts (gs.getD j []) u <;> simp
      · rw [← groupHasApartPerson_eq_false_iff]
        revert hi
        cases groupHasApartPerson aparts (gs.getD i []) u <;> simp
  · rintro ⟨i, l1, l2, heq, hl1, hi, rfl⟩
    have hf : (groupOrder gs).find?
        (fun i => !groupHasApartPerson aparts (gs.getD i []) u) = some i := by
      refine (find?_eq_some_decomp _ i).mpr ⟨l1, l2, heq, ?_, ?_⟩
      · intro j hj
        have := (not_eligible_iff_ghap aparts (gs.getD j []) u).mp (hl1 j hj)
        rw [this]
        rfl
      · rw [(groupHasApartPerson_eq_false_iff aparts (gs.getD i []) u).mpr hi]
        rfl
    rw [hf]

theorem placeUnit_none_iff {aparts : List Constraint} {gs : List (List String)}
    {u : List String} :
    placeUnit aparts gs u = none ↔
      ∀ i ∈ groupOrder gs, ¬ Eligible aparts (gs.getD i []) u := by
  rw [placeUnit]
  cases hf : (groupOrder gs).find?
      (fun i => !groupHasApartPerson aparts (gs.getD i []) u) with
  | none =>
    simp only []
    refine iff_of_true (by trivial) ?_
    intro i hi
    have := List.find?_eq_none.mp hf i hi
    rw [not_eligible_iff_ghap]
    revert this
    cases groupHasApartPerson aparts (gs.getD i []) u <;> simp
  | some i =>
    simp only []
    refine iff_of_false (by simp) ?_
    intro hall
    obtain ⟨l1, l2, heq, -, hi⟩ := (find?_eq_some_decomp _ i).mp hf
    have himem : i ∈ groupOrder gs := by
      rw [heq]
      exact List.mem_append_right l1 (List.mem_cons_self i l2)
    have := (not_eligible_iff_ghap aparts (gs.getD i []) u).mp (hall i himem)
    rw [this] at hi
    exact absurd hi (by simp)

theorem set_append_flatten_perm :
    ∀ (gs : List (List String)) (i : Nat), i < gs.length → ∀ u : List String,
      ((gs.set i (gs.getD i [] ++ u)).flatten).Perm (gs.flatten ++ u) := by
  intro gs
  induction gs with
  | nil =>
    intro i h
    exact absurd h (Nat.not_lt_zero i)
  | cons g t ih =>
    intro i h u
    cases i with
    | zero =>
      simp only [List.getD_cons_zero, List.set_cons_zero, List.flatten_cons]
      rw [List.append_assoc, List.append_assoc]
      exact List.Perm.append_left g List.perm_append_comm
    | succ i =>
      simp only [List.getD_cons_succ, List.set_cons_succ, List.flatten_cons]
      rw [List.append_assoc]
      exact List.Perm.append_left g (ih i (Nat.lt_of_succ_lt_succ h) u)

theorem placeUnit_length {aparts : List Constraint} {gs gs2 : List (List String)}
    {u : List String} (h : placeUnit aparts gs u = some gs2) :
    gs2.length = gs.length := by
  obtain ⟨i, l1, l2, -, -, -, rfl⟩ := placeUnit_some_iff.mp h
  exact List.length_set gs i _

theorem placeUnit_flatten_perm {aparts : List Constraint}
    {gs gs2 : List (List String)} {u : List String}
    (h : placeUnit aparts gs u = some gs2) :
    gs2.flatten.Perm (gs.flatten ++ u) := by
  obtain ⟨i, l1, l2, heq, -, -, rfl⟩ := placeUnit_some_iff.mp h
  have hi : i < gs.length := by
    refine mem_groupOrder_lt ?_
    rw [heq]
    exact List.mem_append_right l1 (List.mem_cons_self i l2)
  exact set_append_flatten_perm gs i hi u

theorem placeUnit_mono {aparts : List Constraint} {gs gs2 : List (List String)}
    {u : List String} (h : placeUnit aparts gs u = some gs2) (j : Nat)
    (x : String) (hx : x ∈ gs.getD j []) : x ∈ gs2.getD j [] := by
  obtain ⟨i, l1, l2, heq, -, -, rfl⟩ := placeUnit_some_iff.mp h
  by_cases hij : i = j
  · subst hij
    have hi : i < gs.length := by
      refine mem_groupOrder_lt ?_
      rw [heq]
      exact List.mem_append_right l1 (List.mem_cons_self i l2)
    rw [getD_set_self gs i _ hi]
    exact List.mem_append_left u hx
  · rw [getD_set_other _ _ hij]
    exact hx

theorem placeUnit_unit_subset {aparts : List Constraint}
    {gs gs2 : List (List String)} {u : List String}
    (h : placeUnit aparts gs u = some gs2) :
    ∃ i, i < gs.length ∧ ∀ x ∈ u, x ∈ gs2.getD i [] := by
  obtain ⟨i, l1, l2, heq, -, -, rfl⟩ := placeUnit_some_iff.mp h
  have hi : i < gs.length := by
    refine mem_groupOrder_lt ?_
    rw [heq]
    exact List.mem_append_right l1 (List.mem_cons_self i l2)
  refine ⟨i, hi, fun x hx => ?_⟩
  rw [getD_set_self gs i _ hi]
  exact List.mem_append_right _ hx

theorem placeAll_length {aparts : List Constraint} :
    ∀ {us : List (List String)} {gs gs2 : List (List String)},
      placeAll aparts gs us = some gs2 → gs2.length = gs.length := by
  intro us
  induction us with
  | nil =>
    intro gs gs2 h
    rw [placeAll] at h
    obtain rfl := Option.some_inj.mp h
    rfl
  | cons u us ih =>
    intro gs gs2 h
    rw [placeAll] at h
    cases hpu : placeUnit aparts gs u with
    | none =>
      rw [hpu] at h
      exact absurd h (by simp)
    | some gs1 =>
      rw [hpu] at h
      rw [ih h, placeUnit_length hpu]

theorem placeAll_flatten_perm {aparts : List Constraint} :
    ∀ {us : List (List String)} {gs gs2 : List (List String)},
      placeAll aparts gs us = some gs2 →
      gs2.flatten.Perm (gs.flatten ++ us.flatten) := by
  intro us
  induction us with
  | nil =>
    intro gs gs2 h
    rw [placeAll] at h
    obtain rfl := Option.some_inj.mp h
    simp
  | cons u us ih =>
    intro gs gs2 h
    rw [placeAll] at h
    cases hpu : placeUnit aparts gs u with
    | none =>
      rw [hpu] at h
      exact absurd h (by simp)
    | some gs1 =>
      rw [hpu] at h
      have h1 := ih h
      have h2 := placeUnit_flatten_perm hpu
      refine h1.trans ?_
      refine (List.Perm.append_right us.flatten h2).trans ?_
      rw [List.flatten_cons, List.append_assoc]

theorem placeAll_mono {aparts : List Constraint} :
    ∀ {us : List (List String)} {gs gs2 : List (List String)},
      placeAll aparts gs us = some gs2 →
      ∀ (j : Nat) (x : String), x ∈ gs.getD j [] → x ∈ gs2.getD j [] := by
  intro us
  induction us with
  | nil =>
    intro gs gs2 h j x hx
    rw [placeAll] at h
    obtain rfl := Option.some_inj.mp h
    exact hx
  | cons u us ih =>
    intro gs gs2 h j x hx
    rw [placeAll] at h
    cases hpu : placeUnit aparts gs u with
    | none =>
      rw [hpu] at h
      exact absurd h (by simp)
    | some gs1 =>
      rw [hpu] at h
      exact ih h j x (placeUnit_mono hpu j x hx)

theorem placeAll_unit_subset {aparts : List Constraint} :
    ∀ {us : List (List String)} {gs gs2 : List (List String)}
      {u : List String},
      placeAll aparts gs us = some gs2 → u ∈ us →
      ∃ i, i < gs.length ∧ ∀ x ∈ u, x ∈ gs2.getD i [] := by
  intro us
  induction us with
  | nil =>
    intro gs gs2 u _ hu
    exact absurd hu (List.not_mem_nil u)
  | cons u0 us ih =>
    intro gs gs2 u h hu
    rw [placeAll] at h
    cases hpu : placeUnit aparts gs u0 with
    | none =>
      rw [hpu] at h
      exact absurd h (by simp)
    | some gs1 =>
      rw [hpu] at h
      rcases List.mem_cons.mp hu with rfl | hu
      · obtain ⟨i, hi, hsub⟩ := placeUnit_unit_subset hpu
        exact ⟨i, hi, fun x hx => placeAll_mono h i x (hsub x hx)⟩
      · obtain ⟨i, hi, hsub⟩ := ih h hu
        rw [placeUnit_length hpu] at hi
        exact ⟨i, hi, hsub⟩

/-! ### The retry loop -/

theorem runAttempts_none_iff (r : Nat → Nat) (aparts : List Constraint) (k : Nat)
    (units : List (List String)) :
    ∀ (n off : Nat), runAttempts r aparts k units off n = none ↔
      ∀ t, t < n → placeAll aparts (List.replicate k [])
        (shuffleArray r (off + t * units.length) units) = none := by
  intro n
  induction n with
  | zero =>
    intro off
    refine iff_of_true rfl ?_
    intro t ht
    exact absurd ht (Nat.not_lt_zero t)
  | succ n ih =>
    intro off
    rw [runAttempts]
    cases hp : placeAll aparts (List.replicate k []) (shuffleArray r off units) with
    | some gs =>
      simp only []
      refine iff_of_false (by simp) ?_
      intro hall
      have h0 := hall 0 (Nat.succ_pos n)
      rw [Nat.zero_mul, Nat.add_zero, hp] at h0
      exact absurd h0 (by simp)
    | none =>
      simp only []
      rw [ih (off + units.length)]
      constructor
      · intro h t ht
        cases t with
        | zero =>
          rw [Nat.zero_mul, Nat.add_zero]
          exact hp
        | succ t =>
          have := h t (Nat.lt_of_succ_lt_succ ht)
          have harith : off + units.length + t * units.length
              = off + (t + 1) * units.length := by ring
          rwa [harith] at this
      · intro h t ht
        have := h (t + 1) (Nat.succ_lt_succ ht)
        have harith : off + units.length + t * units.length
            = off + (t + 1) * units.length := by ring
        rwa [← harith] at this

theorem runAttempts_some_inv (r : Nat → Nat) (aparts : List Constraint) (k : Nat)
    (units : List (List String)) (gs : List (List String)) :
    ∀ (n off : Nat), runAttempts r aparts k units off n = some gs →
      ∃ off2, placeAll aparts (List.replicate k [])
        (shuffleArray r off2 units) = some gs := by
  intro n
  induction n with
  | zero =>
    intro off h
    exact absurd h (by rw [runAttempts]; simp)
  | succ n ih =>
    intro off h
    rw [runAttempts] at h
    cases hp : placeAll aparts (List.replicate k []) (shuffleArray r off units) with
    | some gs2 =>
      rw [hp] at h
      obtain rfl := Option.some_inj.mp h
      exact ⟨off, hp⟩
    | none =>
      rw [hp] at h
      exact ih (off + units.length) h

theorem runAttempts_ext (r r2 : Nat → Nat) (aparts : List Constraint) (k : Nat)
    (units : List (List String)) :
    ∀ (n off : Nat),
      (∀ i, off ≤ i → i < off + n * units.length → r i = r2 i) →
      runAttempts r aparts k units off n = runAttempts r2 aparts k units off n := by
  intro n
  induction n with
  | zero =>
    intro off _
    rfl
  | succ n ih =>
    intro off h
    rw [runAttempts, runAttempts]
    have hs : shuffleArray r off units = shuffleArray r2 off units :=
      shuffleArray_ext r r2 off units
        (fun i h1 h2 => h i h1 (by rw [Nat.succ_mul]; omega))
    rw [hs]
    cases placeAll aparts (List.replicate k []) (shuffleArray r2 off units) with
    | some gs => rfl
    | none =>
      simp only []
      exact ih (off + units.length)
        (fun i h1 h2 => h i (by omega) (by rw [Nat.succ_mul]; omega))

/-! ### The conflict scan -/

theorem pairConflict_mem {a t : Constraint} {z : String} :
    z ∈ (firstDedup a.people).filter (fun x => t.people.contains x) ↔
      z ∈ a.people ∧ z ∈ t.people := by
  rw [List.mem_filter, mem_firstDedup]
  simp [List.contains, List.elem_iff]

theorem pairConflict_none_iff (a t : Constraint) :
    pairConflict a t = none ↔
      ¬ ∃ x y, x ≠ y ∧ x ∈ a.people ∧ x ∈ t.people ∧
        y ∈ a.people ∧ y ∈ t.people := by
  rw [pairConflict]
  have hnd : ((firstDedup a.people).filter (fun x => t.people.contains x)).Nodup :=
    (nodup_firstDedup _).filter _
  cases hL : (firstDedup a.people).filter (fun x => t.people.contains x) with
  | nil =>
    refine iff_of_true rfl ?_
    rintro ⟨x, y, -, hxa, hxt, -, -⟩
    have hmem : x ∈ (firstDedup a.people).filter (fun w => t.people.contains w) :=
      pairConflict_mem.mpr ⟨hxa, hxt⟩
    rw [hL] at hmem
    exact absurd hmem (List.not_mem_nil x)
  | cons x L2 =>
    cases L2 with
    | nil =>
      refine iff_of_true rfl ?_
      rintro ⟨x1, y1, hxy, hxa, hxt, hya, hyt⟩
      have h1 : x1 ∈ (firstDedup a.people).filter (fun w => t.people.contains w) :=
        pairConflict_mem.mpr ⟨hxa, hxt⟩
      have h2 : y1 ∈ (firstDedup a.people).filter (fun w => t.people.contains w) :=
        pairConflict_mem.mpr ⟨hya, hyt⟩
      rw [hL] at h1 h2
      simp only [List.mem_singleton] at h1 h2
      exact hxy (h1.trans h2.symm)
    | cons y L3 =>
      refine iff_of_false (by simp) ?_
      intro hno
      rw [hL] at hnd
      have hx : x ∈ a.people ∧ x ∈ t.people := by
        refine pairConflict_mem.mp ?_
        rw [hL]
        exact List.mem_cons_self x _
      have hy : y ∈ a.people ∧ y ∈ t.people := by
        refine pairConflict_mem.mp ?_
        rw [hL]
        exact List.mem_cons_of_mem x (List.mem_cons_self y L3)
      have hxy : x ≠ y := by
        intro hcon
        have := (List.nodup_cons.mp hnd).1
        rw [hcon] at this
        exact this (List.mem_cons_self y L3)
      exact hno ⟨x, y, hxy, hx.1, hx.2, hy.1, hy.2⟩

theorem pairConflict_some_spec {a t : Constraint} {x y : String}
    (h : pairConflict a t = some (x, y)) :
    x ≠ y ∧ (x ∈ a.people ∧ x ∈ t.people) ∧ (y ∈ a.people ∧ y ∈ t.people) ∧
      ∃ rest, (firstDedup a.people).filter (fun z => t.people.contains z)
        = x :: y :: rest := by
  rw [pairConflict] at h
  have hnd : ((firstDedup a.people).filter (fun z => t.people.contains z)).Nodup :=
    (nodup_firstDedup _).filter _
  cases hL : (firstDedup a.people).filter (fun z => t.people.contains z) with
  | nil =>
    rw [hL] at h
    exact absurd h (by simp)
  | cons x1 L2 =>
    cases L2 with
    | nil =>
      rw [hL] at h
      exact absurd h (by simp)
    | cons y1 L3 =>
      rw [hL] at h
      simp only [Option.some_inj, Prod.mk.injEq] at h
      obtain ⟨rfl, rfl⟩ := h
      rw [hL] at hnd
      have hx : x1 ∈ a.people ∧ x1 ∈ t.people := by
        refine pairConflict_mem.mp ?_
        rw [hL]
        exact List.mem_cons_self x1 _
      have hy : y1 ∈ a.people ∧ y1 ∈ t.people := by
        refine pairConflict_mem.mp ?_
        rw [hL]
        exact List.mem_cons_of_mem x1 (List.mem_cons_self y1 L3)
      refine ⟨?_, hx, hy, L3, rfl⟩
      intro hcon
      have := (List.nodup_cons.mp hnd).1
      rw [hcon] at this
      exact this (List.mem_cons_self y1 L3)

theorem conflictCheck_none_iff (aparts togethers : List Constraint) :
    conflictCheck aparts togethers = none ↔
      ∀ a ∈ aparts, ∀ t ∈ togethers, pairConflict a t = none := by
  rw [conflictCheck]
  simp [List.findSome?_eq_none_iff]

theorem conflictCheck_some_decomp {aparts togethers : List Constraint}
    {n1 n2 : String} (h : conflictCheck aparts togethers = some (n1, n2)) :
    ∃ pre a post pre2 t post2,
      aparts = pre ++ a :: post ∧ togethers = pre2 ++ t :: post2 ∧
      (∀ a2 ∈ pre, ∀ t2 ∈ togethers, pairConflict a2 t2 = none) ∧
      (∀ t2 ∈ pre2, pairConflict a t2 = none) ∧
      pairConflict a t = some (n1, n2) := by
  rw [conflictCheck] at h
  obtain ⟨pre, a, post, heq, hpre, ha⟩ := findSome?_eq_some_decomp aparts (n1, n2) h
  obtain ⟨pre2, t, post2, heq2, hpre2, ht⟩ :=
    findSome?_eq_some_decomp togethers (n1, n2) ha
  refine ⟨pre, a, post, pre2, t, post2, heq, heq2, ?_, hpre2, ht⟩
  intro a2 ha2 t2 ht2
  exact List.findSome?_eq_none_iff.mp (hpre a2 ha2) t2 ht2

theorem conflictCheck_some_of_exists {aparts togethers : List Constraint}
    {a t : Constraint} (ha : a ∈ aparts) (ht : t ∈ togethers)
    (hconf : ∃ x y, x ≠ y ∧ x ∈ a.people ∧ x ∈ t.people ∧
      y ∈ a.people ∧ y ∈ t.people) :
    ∃ n1 n2, conflictCheck aparts togethers = some (n1, n2) := by
  cases hcc : conflictCheck aparts togethers with
  | some pr =>
    obtain ⟨n1, n2⟩ := pr
    exact ⟨n1, n2, rfl⟩
  | none =>
    exfalso
    have := (conflictCheck_none_iff aparts togethers).mp hcc a ha t ht
    exact (pairConflict_none_iff a t).mp this hconf

/-! ### The engine's control flow -/

theorem partition_eq_of_lt {people : List String} {k : Nat}
    (aparts togethers : List Constraint) (r : Nat → Nat)
    (h : people.length < k) :
    partition people k aparts togethers r = .error .InsufficientPeople := by
  rw [partition, if_pos h]

theorem partition_eq_of_conflict {people : List String} {k : Nat}
    {aparts togethers : List Constraint} (r : Nat → Nat) {n1 n2 : String}
    (h1 : ¬ people.length < k)
    (hcc : conflictCheck aparts togethers = some (n1, n2)) :
    partition people k aparts togethers r
      = .error (.ConflictingConstraint n1 n2) := by
  rw [partition, if_neg h1, hcc]

theorem partition_eq_of_oversized {people : List String} {k : Nat}
    {aparts togethers : List Constraint} (r : Nat → Nat)
    (h1 : ¬ people.length < k)
    (hcc : conflictCheck aparts togethers = none)
    (hany : (buildUnits people togethers).any
      (fun u => ceilDiv people.length k < u.length) = true) :
    partition people k aparts togethers r = .error .OversizedClique := by
  rw [partition, if_neg h1, hcc]
  simp only [hany, if_true]

theorem partition_eq_of_pack_some {people : List String} {k : Nat}
    {aparts togethers : List Constraint} {r : Nat → Nat}
    {gs : List (List String)}
    (h1 : ¬ people.length < k)
    (hcc : conflictCheck aparts togethers = none)
    (hany : (buildUnits people togethers).any
      (fun u => ceilDiv people.length k < u.length) = false)
    (hra : runAttempts r aparts k (buildUnits people togethers) 0 50 = some gs) :
    partition people k aparts togethers r = .ok (gs.map sortGroup) := by
  rw [partition, if_neg h1, hcc]
  simp only [hany, Bool.false_eq_true, if_false, hra]

theorem partition_eq_of_pack_none {people : List String} {k : Nat}
    {aparts togethers : List Constraint} {r : Nat → Nat}
    (h1 : ¬ people.length < k)
    (hcc : conflictCheck aparts togethers = none)
    (hany : (buildUnits people togethers).any
      (fun u => ceilDiv people.length k < u.length) = false)
    (hra : runAttempts r aparts k (buildUnits people togethers) 0 50 = none) :
    partition people k aparts togethers r
      = .error .UnsatisfiableConstraints := by
  rw [partition, if_neg h1, hcc]
  simp only [hany, Bool.false_eq_true, if_false, hra]

theorem partition_insufficient_inv {people : List String} {k : Nat}
    {aparts togethers : List Constraint} {r : Nat → Nat}
    (h : partition people k aparts togethers r = .error .InsufficientPeople) :
    people.length < k := by
  by_contra h1
  cases hcc : conflictCheck aparts togethers with
  | some pr =>
    obtain ⟨n1, n2⟩ := pr
    rw [partition_eq_of_conflict r h1 hcc] at h
    exact absurd h (by simp)
  | none =>
    cases hany : (buildUnits people togethers).any
        (fun u => ceilDiv people.length k < u.length) with
    | true =>
      rw [partition_eq_of_oversized r h1 hcc hany] at h
      exact absurd h (by simp)
    | false =>
      cases hra : runAttempts r aparts k (buildUnits people togethers) 0 50 with
      | some gs =>
        rw [partition_eq_of_pack_some h1 hcc hany hra] at h
        exact absurd h (by simp)
      | none =>
        rw [partition_eq_of_pack_none h1 hcc hany hra] at h
        exact absurd h (by simp)

theorem partition_conflict_inv {people : List String} {k : Nat}
    {aparts togethers : List Constraint} {r : Nat → Nat} {n1 n2 : String}
    (h : partition people k aparts togethers r
      = .error (.ConflictingConstraint n1 n2)) :
    ¬ people.length < k ∧ conflictCheck aparts togethers = some (n1, n2) := by
  by_cases h1 : people.length < k
  · rw [partition_eq_of_lt aparts togethers r h1] at h
    exact absurd h (by simp)
  · refine ⟨h1, ?_⟩
    cases hcc : conflictCheck aparts togethers with
    | some pr =>
      obtain ⟨m1, m2⟩ := pr
      rw [partition_eq_of_conflict r h1 hcc] at h
      simp only [Except.error.injEq, PartitionError.ConflictingConstraint.injEq] at h
      rw [h.1, h.2]
    | none =>
      exfalso
      cases hany : (buildUnits people togethers).any
          (fun u => ceilDiv people.length k < u.length) with
      | true =>
        rw [partition_eq_of_oversized r h1 hcc hany] at h
        exact absurd h (by simp)
      | false =>
        cases hra : runAttempts r aparts k (buildUnits people togethers) 0 50 with
        | some gs =>
          rw [partition_eq_of_pack_some h1 hcc hany hra] at h
          exact absurd h (by simp)
        | none =>
          rw [partition_eq_of_pack_none h1 hcc hany hra] at h
          exact absurd h (by simp)

theorem partition_oversized_inv {people : List String} {k : Nat}
    {aparts togethers : List Constraint} {r : Nat → Nat}
    (h : partition people k aparts togethers r = .error .OversizedClique) :
    ¬ people.length < k ∧ conflictCheck aparts togethers = none ∧
      (buildUnits people togethers).any
        (fun u => ceilDiv people.length k < u.length) = true := by
  by_cases h1 : people.length < k
  · rw [partition_eq_of_lt aparts togethers r h1] at h
    exact absurd h (by simp)
  · refine ⟨h1, ?_⟩
    cases hcc : conflictCheck aparts togethers with
    | some pr =>
      obtain ⟨n1, n2⟩ := pr
      rw [partition_eq_of_conflict r h1 hcc] at h
      exact absurd h (by simp)
    | none =>
      refine ⟨rfl, ?_⟩
      cases hany : (buildUnits people togethers).any
          (fun u => ceilDiv people.length k < u.length) with
      | true => rfl
      | false =>
        exfalso
        cases hra : runAttempts r aparts k (buildUnits people togethers) 0 50 with
        | some gs =>
          rw [partition_eq_of_pack_some h1 hcc hany hra] at h
          exact absurd h (by simp)
        | none =>
          rw [partition_eq_of_pack_none h1 hcc hany hra] at h
          exact absurd h (by simp)

theorem partition_unsat_inv {people : List String} {k : Nat}
    {aparts togethers : List Constraint} {r : Nat → Nat}
    (h : partition people k aparts togethers r
      = .error .UnsatisfiableConstraints) :
    ¬ people.length < k ∧ conflictCheck aparts togethers = none ∧
      (buildUnits people togethers).any
        (fun u => ceilDiv people.length k < u.length) = false ∧
      runAttempts r aparts k (buildUnits people togethers) 0 50 = none := by
  by_cases h1 : people.length < k
  · rw [partition_eq_of_lt aparts togethers r h1] at h
    exact absurd h (by simp)
  · refine ⟨h1, ?_⟩
    cases hcc : conflictCheck aparts togethers with
    | some pr =>
      obtain ⟨n1, n2⟩ := pr
      rw [partition_eq_of_conflict r h1 hcc] at h
      exact absurd h (by simp)
    | none =>
      refine ⟨rfl, ?_⟩
      cases hany : (buildUnits people togethers).any
          (fun u => ceilDiv people.length k < u.length) with
      | true =>
        exfalso
        rw [partition_eq_of_oversized r h1 hcc hany] at h
        exact absurd h (by simp)
      | false =>
        refine ⟨rfl, ?_⟩
        cases hra : runAttempts r aparts k (buildUnits people togethers) 0 50 with
        | some gs =>
          exfalso
          rw [partition_eq_of_pack_some h1 hcc hany hra] at h
          exact absurd h (by simp)
        | none => rfl

theorem partition_ok_inv {people : List String} {k : Nat}
    {aparts togethers : List Constraint} {r : Nat → Nat}
    {out : List (List String)}
    (h : partition people k aparts togethers r = .ok out) :
    ¬ people.length < k ∧ conflictCheck aparts togethers = none ∧
      (buildUnits people togethers).any
        (fun u => ceilDiv people.length k < u.length) = false ∧
      ∃ gs, runAttempts r aparts k (buildUnits people togethers) 0 50 = some gs
        ∧ out = gs.map sortGroup := by
  by_cases h1 : people.length < k
  · rw [partition_eq_of_lt aparts togethers r h1] at h
    exact absurd h (by simp)
  · refine ⟨h1, ?_⟩
    cases hcc : conflictCheck aparts togethers with
    | some pr =>
      obtain ⟨n1, n2⟩ := pr
      rw [partition_eq_of_conflict r h1 hcc] at h
      exact absurd h (by simp)
    | none =>
      refine ⟨rfl, ?_⟩
      cases hany : (buildUnits people togethers).any
          (fun u => ceilDiv people.length k < u.length) with
      | true =>
        exfalso
        rw [partition_eq_of_oversized r h1 hcc hany] at h
        exact absurd h (by simp)
      | false =>
        refine ⟨rfl, ?_⟩
        cases hra : runAttempts r aparts k (buildUnits people togethers) 0 50 with
        | some gs =>
          rw [partition_eq_of_pack_some h1 hcc hany hra] at h
          simp only [Except.ok.injEq] at h
          exact ⟨gs, rfl, h.symm⟩
        | none =>
          exfalso
          rw [partition_eq_of_pack_none h1 hcc hany hra] at h
          exact absurd h (by simp)

/-! ### Assembling successful results -/

theorem flatten_replicate_nil (k : Nat) :
    (List.replicate k ([] : List String)).flatten = [] := by
  induction k with
  | zero => rfl
  | succ k ih => rw [List.replicate_succ, List.flatten_cons, List.nil_append, ih]

theorem flatten_map_sortGroup_perm (gs : List (List String)) :
    ((gs.map sortGroup).flatten).Perm gs.flatten := by
  induction gs with
  | nil => exact List.Perm.refl _
  | cons g t ih =>
    simp only [List.map_cons, List.flatten_cons]
    exact List.Perm.append (sortGroup_perm g) ih

theorem unit_of_root_mem (people : List String) (togethers : List Constraint)
    (p : String) (hp : p ∈ people) :
    people.filter (fun q => rootOf togethers q == rootOf togethers p)
      ∈ buildUnits people togethers := by
  rw [buildUnits]
  refine List.mem_map_of_mem _ ?_
  exact (mem_firstDedup _).mpr (List.mem_map_of_mem _ hp)

theorem getD_mem_of_lt (l : List (List String)) (i : Nat) (h : i < l.length) :
    l.getD i [] ∈ l := by
  rw [List.getD_eq_getElem?_getD, List.getElem?_eq_getElem h, Option.getD_some]
  exact List.getElem_mem h

theorem partition_ext {people : List String} {k : Nat}
    {aparts togethers : List Constraint} {r r2 : Nat → Nat}
    (h : ∀ i, i < 50 * (buildUnits people togethers).length → r i = r2 i) :
    partition people k aparts togethers r
      = partition people k aparts togethers r2 := by
  have hra : runAttempts r aparts k (buildUnits people togethers) 0 50
      = runAttempts r2 aparts k (buildUnits people togethers) 0 50 :=
    runAttempts_ext r r2 aparts k _ 50 0
      (fun i _ h2 => h i (by simpa using h2))
  by_cases h1 : people.length < k
  · rw [partition_eq_of_lt aparts togethers r h1,
      partition_eq_of_lt aparts togethers r2 h1]
  · cases hcc : conflictCheck aparts togethers with
    | some pr =>
      obtain ⟨n1, n2⟩ := pr
      rw [partition_eq_of_conflict r h1 hcc, partition_eq_of_conflict r2 h1 hcc]
    | none =>
      cases hany : (buildUnits people togethers).any
          (fun u => ceilDiv people.length k < u.length) with
      | true =>
        rw [partition_eq_of_oversized r h1 hcc hany,
          partition_eq_of_oversized r2 h1 hcc hany]
      | false =>
        cases hra2 : runAttempts r2 aparts k (buildUnits people togethers) 0 50 with
        | some gs =>
          rw [partition_eq_of_pack_some h1 hcc hany (hra.trans hra2),
            partition_eq_of_pack_some h1 hcc hany hra2]
        | none =>
          rw [partition_eq_of_pack_none h1 hcc hany (hra.trans hra2),
            partition_eq_of_pack_none h1 hcc hany hra2]

/-! ### The claims -/

/-- C1: a successful run returns exactly `finalGroupCount` groups whose
members are exactly the input people — a permutation, hence no person
missing and (the input being duplicate-free) no person twice — and every
group is sorted ascending in the string order. -/
theorem claim1_partition_complete {people : List String} {k : Nat}
    {aparts togethers : List Constraint} {r : Nat → Nat}
    {gs : List (List String)}
    (hnd : people.Nodup) (_hk2 : 2 ≤ k)
    (h : partition people k aparts togethers r = .ok gs) :
    gs.length = k ∧ gs.flatten.Perm people ∧ gs.flatten.Nodup ∧
      ∀ g ∈ gs, g.Sorted (· ≤ ·) := by
  obtain ⟨h1, hcc, hany, gs0, hra, rfl⟩ := partition_ok_inv h
  obtain ⟨off2, hpa⟩ := runAttempts_some_inv r aparts k _ gs0 50 0 hra
  have hlen : gs0.length = k := by
    rw [placeAll_length hpa, List.length_replicate]
  have hflat : gs0.flatten.Perm people := by
    have hp := placeAll_flatten_perm hpa
    rw [flatten_replicate_nil, List.nil_append] at hp
    refine hp.trans ?_
    refine (List.Perm.flatten (shuffleArray_perm r off2 _)).trans ?_
    exact buildUnits_flatten_perm people togethers
  have hfinal : ((gs0.map sortGroup).flatten).Perm people :=
    (flatten_map_sortGroup_perm gs0).trans hflat
  refine ⟨?_, hfinal, ?_, ?_⟩
  · rw [List.length_map, hlen]
  · exact hfinal.nodup_iff.mpr hnd
  · intro g hg
    obtain ⟨g0, -, rfl⟩ := List.mem_map.mp hg
    exact sortGroup_sorted g0

/-- C1 witness: a concrete valid run, with the conclusions instantiated. -/
theorem claim1_witness :
    (["A","B","C","D"] : List String).Nodup ∧ 2 ≤ 2 ∧
    partition ["A","B","C","D"] 2 [] [] (fun _ => 0)
      = .ok [["B","D"], ["A","C"]] ∧
    ([["B","D"], ["A","C"]].length = 2 ∧
      ([["B","D"], ["A","C"]] : List (List String)).flatten.Perm
        ["A","B","C","D"] ∧
      ([["B","D"], ["A","C"]] : List (List String)).flatten.Nodup ∧
      ∀ g ∈ ([["B","D"], ["A","C"]] : List (List String)),
        g.Sorted (· ≤ ·)) :=
  ⟨by decide, by decide, rfl,
    @claim1_partition_complete ["A","B","C","D"] 2 [] [] (fun _ => 0)
      [["B","D"], ["A","C"]] (by decide) (by decide) rfl⟩

/-- C2 (refuting the apart invariant): on a valid input where an
apart-constrained pair is transitively merged into one unit by two
together-constraints, the engine succeeds and places the pair in the same
group: apart `{A, C}`, together `{A, B}` and `{B, C}` put A and C into one
group because the conflict pre-check only inspects single constraint pairs
and placement never tests apart links inside a unit. -/
theorem claim2_apart_violation :
    partition ["A","B","C","D","E","F"] 2 [⟨["A","C"]⟩]
      [⟨["A","B"]⟩, ⟨["B","C"]⟩] (fun _ => 0)
      = .ok [["D","F"], ["A","B","C","E"]] ∧
    (∃ g ∈ ([["D","F"], ["A","B","C","E"]] : List (List String)),
      "A" ∈ g ∧ "C" ∈ g) :=
  ⟨rfl, ⟨["A","B","C","E"], by decide, by decide, by decide⟩⟩

/-- C3: every together-constraint's members end up in one group of every
successful result (members are drawn from the people list, spec §6). -/
theorem claim3_together_invariant {people : List String} {k : Nat}
    {aparts togethers : List Constraint} {r : Nat → Nat}
    {gs : List (List String)}
    (h : partition people k aparts togethers r = .ok gs)
    {c : Constraint} (hc : c ∈ togethers) {x y : String}
    (hx : x ∈ c.people) (hy : y ∈ c.people)
    (hxp : x ∈ people) (hyp : y ∈ people) :
    ∃ g ∈ gs, x ∈ g ∧ y ∈ g := by
  obtain ⟨h1, hcc, hany, gs0, hra, rfl⟩ := partition_ok_inv h
  obtain ⟨off2, hpa⟩ := runAttempts_some_inv r aparts k _ gs0 50 0 hra
  set u := people.filter
    (fun q => rootOf togethers q == rootOf togethers x) with hu_def
  have hu : u ∈ buildUnits people togethers := unit_of_root_mem people togethers x hxp
  have hxu : x ∈ u := (mem_unit_iff people togethers _ x).mpr ⟨hxp, rfl⟩
  have hyu : y ∈ u :=
    (mem_unit_iff people togethers _ y).mpr ⟨hyp, rootOf_constraint hc hy hx⟩
  have hush : u ∈ shuffleArray r off2 (buildUnits people togethers) :=
    (shuffleArray_perm r off2 _).mem_iff.mpr hu
  obtain ⟨i, hi, hsub⟩ := placeAll_unit_subset hpa hush
  have hi0 : i < gs0.length := by
    rw [placeAll_length hpa]
    exact hi
  refine ⟨sortGroup (gs0.getD i []),
    List.mem_map_of_mem sortGroup (getD_mem_of_lt gs0 i hi0), ?_, ?_⟩
  · exact (sortGroup_perm _).mem_iff.mpr (hsub x hxu)
  · exact (sortGroup_perm _).mem_iff.mpr (hsub y hyu)

/-- C3 witness: scenario A — together `{A, B}` with 2 groups always
co-locates A and B. -/
theorem claim3_witness :
    partition ["A","B","C","D"] 2 [] [⟨["A","B"]⟩] (fun _ => 0)
      = .ok [["A","B","C"], ["D"]] ∧
    (∃ g ∈ ([["A","B","C"], ["D"]] : List (List String)),
      "A" ∈ g ∧ "B" ∈ g) :=
  ⟨rfl, @claim3_together_invariant ["A","B","C","D"] 2 [] [⟨["A","B"]⟩]
    (fun _ => 0) [["A","B","C"], ["D"]] rfl ⟨["A","B"]⟩ (by decide) "A" "B"
    (by decide) (by decide) (by decide) (by decide)⟩

/-- C10: a valid input (4 people, together `{A, B}` and `{C, D}`, 3
groups) passes every validation check yet succeeds with an empty third
group: only 2 units exist and nothing compares the unit count with
`finalGroupCount`. -/
theorem claim10_empty_group :
    partition ["A","B","C","D"] 3 [] [⟨["A","B"]⟩, ⟨["C","D"]⟩] (fun _ => 0)
      = .ok [["C","D"], ["A","B"], []] ∧
    ([] : List String) ∈ ([["C","D"], ["A","B"], []] : List (List String)) :=
  ⟨rfl, by decide⟩

/-- C4: within one attempt a unit's candidate order is exactly the group
indices sorted by current size ascending with ties broken by original
index ascending, a group is eligible iff no placed person and no unit
person share an apart-constraint, and the unit goes to the first eligible
group of that order (or the step fails when none is eligible). -/
theorem claim4_placement_step (aparts : List Constraint)
    (gs : List (List String)) (u : List String) :
    (groupOrder gs).Perm (List.range gs.length) ∧
    (groupOrder gs).Pairwise (fun i j =>
      (gs.getD i []).length < (gs.getD j []).length ∨
        ((gs.getD i []).length = (gs.getD j []).length ∧ i < j)) ∧
    (∀ gs2, placeUnit aparts gs u = some gs2 ↔
      ∃ i l1 l2, groupOrder gs = l1 ++ i :: l2
        ∧ (∀ j ∈ l1, ¬ Eligible aparts (gs.getD j []) u)
        ∧ Eligible aparts (gs.getD i []) u
        ∧ gs2 = gs.set i (gs.getD i [] ++ u)) ∧
    (placeUnit aparts gs u = none ↔
      ∀ i ∈ groupOrder gs, ¬ Eligible aparts (gs.getD i []) u) :=
  ⟨groupOrder_perm_range gs, groupOrder_pairwise gs,
    fun _ => placeUnit_some_iff, placeUnit_none_iff⟩

/-- C5: once validation passes, the engine reports
`UnsatisfiableConstraints` exactly when each of the 50 bounded attempts
fails to place every unit; it never searches past the attempt budget (the
loop is structurally bounded by the fuel 50). -/
theorem claim5_attempt_budget {people : List String} {k : Nat}
    {aparts togethers : List Constraint} (r : Nat → Nat)
    (h1 : ¬ people.length < k)
    (hcc : conflictCheck aparts togethers = none)
    (hany : (buildUnits people togethers).any
      (fun u => ceilDiv people.length k < u.length) = false) :
    partition people k aparts togethers r = .error .UnsatisfiableConstraints ↔
      ∀ t, t < 50 → attemptAt r aparts k (buildUnits people togethers) t = none := by
  constructor
  · intro h
    obtain ⟨-, -, -, hra⟩ := partition_unsat_inv h
    intro t ht
    have hp := (runAttempts_none_iff r aparts k _ 50 0).mp hra t ht
    rw [Nat.zero_add] at hp
    rw [attemptAt]
    exact hp
  · intro hall
    refine partition_eq_of_pack_none h1 hcc hany ?_
    rw [runAttempts_none_iff]
    intro t ht
    rw [Nat.zero_add]
    have hp := hall t ht
    rw [attemptAt] at hp
    exact hp

/-- C5 witness: three mutually apart people cannot fit into two groups,
so every attempt fails and the budget is exhausted. -/
theorem claim5_witness :
    ¬ (["A","B","C"] : List String).length < 2 ∧
    conflictCheck [⟨["A","B","C"]⟩] [] = none ∧
    (buildUnits ["A","B","C"] []).any
      (fun u => ceilDiv (["A","B","C"] : List String).length 2 < u.length) = false ∧
    (partition ["A","B","C"] 2 [⟨["A","B","C"]⟩] [] (fun _ => 0)
        = .error .UnsatisfiableConstraints ↔
      ∀ t, t < 50 → attemptAt (fun _ => 0) [⟨["A","B","C"]⟩] 2
        (buildUnits ["A","B","C"] []) t = none) :=
  ⟨by decide, rfl, by decide,
    claim5_attempt_budget (fun _ => 0) (by decide) rfl (by decide)⟩

/-- C6 counterexample: an input whose single unit is oversized but which
also has a constraint conflict fails with `ConflictingConstraint`, not
`OversizedClique` — the unconditional "iff" of the claim is false. -/
theorem claim6_counterexample :
    partition ["A","B","C"] 2 [⟨["A","B"]⟩] [⟨["A","B","C"]⟩] (fun _ => 0)
      = .error (.ConflictingConstraint "A" "B") ∧
    (∃ u ∈ buildUnits ["A","B","C"] [⟨["A","B","C"]⟩],
      ceilDiv (["A","B","C"] : List String).length 2 < u.length) :=
  ⟨rfl, ⟨["A","B","C"], by decide, by decide⟩⟩

/-- C6 amended: provided the earlier checks pass (enough people, no
constraint conflict), the engine fails with `OversizedClique` iff some
unit is larger than `ceil(people.length / finalGroupCount)` — for every
random source, before any packing attempt. -/
theorem claim6_amended {people : List String} {k : Nat}
    {aparts togethers : List Constraint} (r : Nat → Nat)
    (h1 : ¬ people.length < k)
    (hcc : conflictCheck aparts togethers = none) :
    partition people k aparts togethers r = .error .OversizedClique ↔
      ∃ u ∈ buildUnits people togethers, ceilDiv people.length k < u.length := by
  constructor
  · intro h
    obtain ⟨-, -, hany⟩ := partition_oversized_inv h
    rw [List.any_eq_true] at hany
    obtain ⟨u, hu, hlt⟩ := hany
    exact ⟨u, hu, by simpa using hlt⟩
  · rintro ⟨u, hu, hlt⟩
    refine partition_eq_of_oversized r h1 hcc ?_
    rw [List.any_eq_true]
    exact ⟨u, hu, by simpa using hlt⟩

/-- C6 amended witness: scenario D — a together-constraint of all three
people with 2 groups makes a unit of size 3 > ceil(3/2) = 2. -/
theorem claim6_witness :
    ¬ (["A","B","C"] : List String).length < 2 ∧
    conflictCheck [] [⟨["A","B","C"]⟩] = none ∧
    partition ["A","B","C"] 2 [] [⟨["A","B","C"]⟩] (fun _ => 0)
      = .error .OversizedClique :=
  ⟨by decide, rfl,
    (@claim6_amended ["A","B","C"] 2 [] [⟨["A","B","C"]⟩] (fun _ => 0)
      (by decide) rfl).mpr ⟨["A","B","C"], by decide, by decide⟩⟩

/-- C7 counterexample: with 2 people and 3 groups requested, an input
that also has an apart/together conflict fails with `InsufficientPeople`,
not `ConflictingConstraint` — the unconditional "iff" of the claim is
false. -/
theorem claim7_counterexample :
    partition ["A","B"] 3 [⟨["A","B"]⟩] [⟨["A","B"]⟩] (fun _ => 0)
      = .error .InsufficientPeople ∧
    (∃ a ∈ ([⟨["A","B"]⟩] : List Constraint),
      ∃ t ∈ ([⟨["A","B"]⟩] : List Constraint),
      ∃ x y : String, x ≠ y ∧ x ∈ a.people ∧ x ∈ t.people ∧
        y ∈ a.people ∧ y ∈ t.people) :=
  ⟨rfl, ⟨⟨["A","B"]⟩, by decide, ⟨["A","B"]⟩, by decide, "A", "B",
    by decide, by decide, by decide, by decide, by decide⟩⟩

/-- C7 amended: provided the people count suffices, the engine fails with
`ConflictingConstraint` iff some apart- and together-constraint share two
distinct people; the reported names are the first two distinct common
members (in apart-member order) of the first conflicting pair in the
apart-outer / together-inner iteration order, independently of the random
source and before any packing. -/
theorem claim7_amended {people : List String} {k : Nat}
    {aparts togethers : List Constraint} (r : Nat → Nat)
    (h1 : ¬ people.length < k) :
    ((∃ n1 n2, partition people k aparts togethers r
        = .error (.ConflictingConstraint n1 n2)) ↔
      (∃ a ∈ aparts, ∃ t ∈ togethers, ∃ x y, x ≠ y ∧
        x ∈ a.people ∧ x ∈ t.people ∧ y ∈ a.people ∧ y ∈ t.people)) ∧
    (∀ n1 n2, partition people k aparts togethers r
        = .error (.ConflictingConstraint n1 n2) →
      ∃ pre a post pre2 t post2,
        aparts = pre ++ a :: post ∧ togethers = pre2 ++ t :: post2 ∧
        (∀ a2 ∈ pre, ∀ t2 ∈ togethers, ¬ ∃ x y, x ≠ y ∧
          x ∈ a2.people ∧ x ∈ t2.people ∧ y ∈ a2.people ∧ y ∈ t2.people) ∧
        (∀ t2 ∈ pre2, ¬ ∃ x y, x ≠ y ∧
          x ∈ a.people ∧ x ∈ t2.people ∧ y ∈ a.people ∧ y ∈ t2.people) ∧
        n1 ≠ n2 ∧ (n1 ∈ a.people ∧ n1 ∈ t.people) ∧
        (n2 ∈ a.people ∧ n2 ∈ t.people) ∧
        ∃ rest, (firstDedup a.people).filter (fun z => t.people.contains z)
          = n1 :: n2 :: rest) := by
  constructor
  · constructor
    · rintro ⟨n1, n2, h⟩
      obtain ⟨-, hcc⟩ := partition_conflict_inv h
      obtain ⟨pre, a, post, pre2, t, post2, heqa, heqt, -, -, hpt⟩ :=
        conflictCheck_some_decomp hcc
      obtain ⟨hne, hx, hy, -⟩ := pairConflict_some_spec hpt
      refine ⟨a, ?_, t, ?_, n1, n2, hne, hx.1, hx.2, hy.1, hy.2⟩
      · rw [heqa]
        exact List.mem_append_right pre (List.mem_cons_self a post)
      · rw [heqt]
        exact List.mem_append_right pre2 (List.mem_cons_self t post2)
    · rintro ⟨a, ha, t, ht, hconf⟩
      obtain ⟨n1, n2, hcc⟩ := conflictCheck_some_of_exists ha ht hconf
      exact ⟨n1, n2, partition_eq_of_conflict r h1 hcc⟩
  · intro n1 n2 h
    obtain ⟨-, hcc⟩ := partition_conflict_inv h
    obtain ⟨pre, a, post, pre2, t, post2, heqa, heqt, hprea, hpre2, hpt⟩ :=
      conflictCheck_some_decomp hcc
    obtain ⟨hne, hx, hy, hrest⟩ := pairConflict_some_spec hpt
    refine ⟨pre, a, post, pre2, t, post2, heqa, heqt, ?_, ?_, hne, hx, hy, hrest⟩
    · intro a2 ha2 t2 ht2
      exact (pairConflict_none_iff a2 t2).mp (hprea a2 ha2 t2 ht2)
    · intro t2 ht2
      exact (pairConflict_none_iff a t2).mp (hpre2 t2 ht2)

/-- C7 amended witness: scenario C — apart `{A, B}` and together
`{A, B, C}` conflict, naming A and B. -/
theorem claim7_witness :
    ¬ (["A","B","C"] : List String).length < 2 ∧
    (∃ n1 n2, partition ["A","B","C"] 2 [⟨["A","B"]⟩] [⟨["A","B","C"]⟩]
      (fun _ => 0) = .error (.ConflictingConstraint n1 n2)) :=
  ⟨by decide,
    (claim7_amended (fun _ => 0) (by decide)).1.mpr
      ⟨⟨["A","B"]⟩, by decide, ⟨["A","B","C"]⟩, by decide, "A", "B",
        by decide, by decide, by decide, by decide, by decide⟩⟩

/-- C8: too few people always yields `InsufficientPeople`, for every
random source — and conversely that error only arises this way. -/
theorem claim8_insufficient (people : List String) (k : Nat)
    (aparts togethers : List Constraint) (r : Nat → Nat) :
    partition people k aparts togethers r = .error .InsufficientPeople ↔
      people.length < k :=
  ⟨partition_insufficient_inv, partition_eq_of_lt aparts togethers r⟩

/-- C9: the engine does not mutate its inputs — the run returns the input
record unchanged — and the result is a pure function of the inputs and
the consumed random draws: random sources agreeing on the at most
`50 * units` consumed draws give identical results. -/
theorem claim9_no_mutation (inp : EngineInput) (r r2 : Nat → Nat)
    (h : ∀ i, i < 50 *
      (buildUnits inp.people inp.togetherConstraints).length → r i = r2 i) :
    (partitionRun inp r).2 = inp ∧
    (partitionRun inp r).1 = (partitionRun inp r2).1 :=
  ⟨rfl, partition_ext h⟩

/-- C9 witness: two random sources agreeing on the consumed window. -/
theorem claim9_witness :
    (∀ i, i < 50 * (buildUnits ["A","B","C","D"]
      [⟨["A","B"]⟩]).length → (0 : Nat) = (if i < 1000 then 0 else 7)) ∧
    ((partitionRun ⟨["A","B","C","D"], 2, [], [⟨["A","B"]⟩]⟩ (fun _ => 0)).2
        = ⟨["A","B","C","D"], 2, [], [⟨["A","B"]⟩]⟩ ∧
      (partitionRun ⟨["A","B","C","D"], 2, [], [⟨["A","B"]⟩]⟩ (fun _ => 0)).1
        = (partitionRun ⟨["A","B","C","D"], 2, [], [⟨["A","B"]⟩]⟩
            (fun i => if i < 1000 then 0 else 7)).1) :=
  ⟨by decide,
    claim9_no_mutation ⟨["A","B","C","D"], 2, [], [⟨["A","B"]⟩]⟩
      (fun _ => 0) (fun i => if i < 1000 then 0 else 7) (by decide)⟩

end TeamShuffler
